import Mathlib

/-!
Verification of the day-05 almanac pipeline (`src/day_05/src/main.rs`):
range mappings over `u64`, mapping tables with identity fallback, the
blank-line-sectioned document grammar, and the minimum reduction.

The Rust code is shallowly embedded: `u64` values become `Nat` with the
wrap-around of machine addition made explicit as `% 2^64` exactly where the
source performs an addition that can overflow; strings become `List Char`;
fallible functions return `Except String` mirroring `type AocError = String`.
-/

namespace Aoc23Day5

/-- `2 ^ 64`, the modulus of Rust `u64` arithmetic. -/
def U64MOD : Nat := 18446744073709551616

/-- The character list of a string literal. -/
def strL (s : String) : List Char := s.data

/-- Rust `type AocError = String`. -/
abbrev AocError := String

/-- Half-open interval, mirroring Rust `Range<u64>` (`start..end`). -/
structure NRange where
  start : Nat
  stop : Nat
  deriving DecidableEq, Repr

/-- Mirror of `struct Mapping { dest: Range<Number>, src: Range<Number> }`. -/
structure Mapping where
  dest : NRange
  src : NRange
  deriving DecidableEq, Repr

/-- Mirror of `Mapping::new`: `dest: dst..(dst + len), src: src..(src + len)`.
The two `u64` additions wrap modulo `2 ^ 64`. -/
def Mapping.new (dst src len : Nat) : Mapping :=
  { dest := ⟨dst, (dst + len) % U64MOD⟩, src := ⟨src, (src + len) % U64MOD⟩ }

/-- Mirror of `Mapping::map`: `self.src.contains(&n)` is `start <= n < end`;
on a hit the offset `n - self.src.start` cannot underflow (guarded), and the
`u64` addition `self.dest.start + offset` wraps modulo `2 ^ 64`. -/
def Mapping.map (m : Mapping) (n : Nat) : Option Nat :=
  if m.src.start ≤ n ∧ n < m.src.stop then
    some ((m.dest.start + (n - m.src.start)) % U64MOD)
  else
    none

/-- Rust `char::is_ascii_whitespace`: space, tab, line feed, form feed,
carriage return. -/
def isAsciiWhitespaceChar (c : Char) : Bool :=
  c == ' ' || c == '\t' || c == '\n' || c == '\x0c' || c == '\r'

/-- Rust `char::is_whitespace` (the Unicode `White_Space` characters),
used by `str::trim`. -/
def isUnicodeWhitespaceChar (c : Char) : Bool :=
  c == ' ' || c == '\t' || c == '\n' || c == '\x0b' || c == '\x0c' || c == '\r' ||
  c == '\x85' || c == '\xa0' || c == '\u1680' ||
  c == '\u2000' || c == '\u2001' || c == '\u2002' || c == '\u2003' ||
  c == '\u2004' || c == '\u2005' || c == '\u2006' || c == '\u2007' ||
  c == '\u2008' || c == '\u2009' || c == '\u200a' ||
  c == '\u2028' || c == '\u2029' || c == '\u202f' || c == '\u205f' || c == '\u3000'

/-- Rust `str::trim`: drop Unicode whitespace from both ends. -/
def rustTrim (cs : List Char) : List Char :=
  ((cs.dropWhile isUnicodeWhitespaceChar).reverse.dropWhile isUnicodeWhitespaceChar).reverse

/-- Accumulator pass behind `splitAsciiWhitespace`: `cur` holds the current
token reversed. -/
def tokensAux (cs : List Char) (cur : List Char) : List (List Char) :=
  match cs with
  | [] => if cur.isEmpty then [] else [cur.reverse]
  | c :: rest =>
    if isAsciiWhitespaceChar c then
      if cur.isEmpty then tokensAux rest [] else cur.reverse :: tokensAux rest []
    else
      tokensAux rest (c :: cur)

/-- Rust `str::split_ascii_whitespace`: the maximal runs of
non-ASCII-whitespace characters, in order; no empty tokens. -/
def splitAsciiWhitespace (cs : List Char) : List (List Char) :=
  tokensAux cs []

/-- Rust `str::parse::<u64>`: an optional leading `+`, then one or more ASCII
digits, with the value required to fit in `u64`; the error strings are the
`Display` renderings of the corresponding `ParseIntError` kinds (the code
surfaces them via `e.to_string()`). -/
def parseNumber (cs : List Char) : Except AocError Nat :=
  match cs with
  | [] => .error "cannot parse integer from empty string"
  | _ =>
    let ds := match cs with
      | '+' :: rest => rest
      | _ => cs
    if ds.isEmpty then .error "invalid digit found in string"
    else if ds.all Char.isDigit then
      let v := ds.foldl (fun a c => a * 10 + (c.toNat - 48)) 0
      if v < U64MOD then .ok v else .error "number too large to fit in target type"
    else .error "invalid digit found in string"

/-- Rust `Iterator::collect::<Result<Vec<_>, AocError>>`: collects the `Ok`
values in order, short-circuiting at the first `Err`. -/
def collectE (f : α → Except AocError β) : List α → Except AocError (List β)
  | [] => .ok []
  | x :: rest =>
    match f x with
    | .error e => .error e
    | .ok b =>
      match collectE f rest with
      | .error e => .error e
      | .ok bs => .ok (b :: bs)

/-- Mirror of `impl FromStr for Mapping`: trim, split on ASCII whitespace,
parse every token as `u64` (first parse error wins), then require exactly
three numbers. -/
def Mapping.fromStr (cs : List Char) : Except AocError Mapping :=
  match collectE parseNumber (splitAsciiWhitespace (rustTrim cs)) with
  | .error e => .error e
  | .ok nums =>
    match nums with
    | [a, b, c] => .ok (Mapping.new a b c)
    | _ => .error "too few numbers in mapping"

/-- Rust `str::split_once`: split at the first occurrence of `sep`,
returning the text before and after it. -/
def splitOnce (sep : List Char) : List Char → Option (List Char × List Char)
  | [] => if sep.isEmpty then some ([], []) else none
  | c :: rest =>
    if sep.isPrefixOf (c :: rest) then some ([], (c :: rest).drop sep.length)
    else
      match splitOnce sep rest with
      | none => none
      | some (pre, post) => some (c :: pre, post)

/-- The header separator `"-to-"`. -/
def toSeparator : List Char := ['-', 't', 'o', '-']

/-- Rust `str::split` with a fixed pattern, keeping empty pieces; `fuel`
bounds the recursion (each step consumes at least the nonempty separator). -/
def splitAllAux (sep : List Char) : Nat → List Char → List (List Char)
  | 0, cs => [cs]
  | fuel + 1, cs =>
    match splitOnce sep cs with
    | none => [cs]
    | some (pre, post) => pre :: splitAllAux sep fuel post

/-- Rust `str::split` with a fixed nonempty pattern. -/
def splitAll (sep cs : List Char) : List (List Char) :=
  splitAllAux sep (cs.length + 1) cs

/-- Drop one trailing carriage return, as Rust `str::lines` does per line. -/
def stripTrailingCR (cs : List Char) : List Char :=
  if cs.getLast? == some '\r' then cs.dropLast else cs

/-- Rust `str::lines`: split on `'\n'`, drop the empty piece produced by a
final line ending, strip one trailing `'\r'` from each line. -/
def linesOf (cs : List Char) : List (List Char) :=
  let parts := splitAll ['\n'] cs
  let parts := if parts.getLast? == some [] then parts.dropLast else parts
  parts.map stripTrailingCR

/-- Mirror of `struct MappingTable`; labels are kept as character lists. -/
structure MappingTable where
  from_label : List Char
  to_label : List Char
  mappings : List Mapping
  deriving DecidableEq, Repr

/-- Mirror of `impl FromStr for MappingTable`: the header is the first line
(`lines().take(1).reduce(|_, l| l)`); it must contain `"-to-"`; every later
line is parsed as a `Mapping` (this happens before the destination label is
cut); the destination label is the to-part cut at its first space character
(`split_once(" ")`), which fails if the to-part has no space. -/
def MappingTable.fromStr (cs : List Char) : Except AocError MappingTable :=
  match (linesOf cs).head? with
  | none => .error "getting header line"
  | some header =>
    match splitOnce toSeparator header with
    | none => .error "split header"
    | some (fromPart, toPart) =>
      match collectE Mapping.fromStr ((linesOf cs).drop 1) with
      | .error e => .error e
      | .ok mappings =>
        match splitOnce [' '] toPart with
        | none => .error "split header to-part"
        | some (toLabel, _) => .ok ⟨fromPart, toLabel, mappings⟩

/-- One step of the `for mapping in &self.mappings` loop of
`MappingTable::map`: return the first hit, else fall through. -/
def tableMapGo (n : Nat) : List Mapping → Nat
  | [] => n
  | m :: rest =>
    match m.map n with
    | some r => r
    | none => tableMapGo n rest

/-- Mirror of `MappingTable::map`: first matching range wins; if no range
matches, the input is returned unchanged. -/
def MappingTable.map (t : MappingTable) (n : Nat) : Nat :=
  tableMapGo n t.mappings

/-- Mirror of `struct Seeds(Vec<Number>)`. -/
structure Seeds where
  val : List Nat
  deriving DecidableEq, Repr

/-- The error decoration of `Seeds::from_str`:
`format!("parse seed value ({seed}): {e}")`. -/
def mapSeedErr (t : List Char) : Except AocError Nat → Except AocError Nat
  | .error e => .error ("parse seed value (" ++ String.mk t ++ "): " ++ e)
  | .ok n => .ok n

/-- Mirror of `impl FromStr for Seeds`: split at the first `':'` (error if
none), then parse every ASCII-whitespace-separated token of the remainder —
the whole remainder of the block, newlines included — as a `u64`. -/
def Seeds.fromStr (cs : List Char) : Except AocError Seeds :=
  match splitOnce [':'] cs with
  | none => .error "split seed line"
  | some (_, rest) =>
    match collectE (fun t => mapSeedErr t (parseNumber t)) (splitAsciiWhitespace rest) with
    | .error e => .error e
    | .ok ns => .ok ⟨ns⟩

/-- Mirror of `struct Almanac`. -/
structure Almanac where
  seeds : Seeds
  mapping_tables : List MappingTable
  deriving DecidableEq, Repr

/-- Mirror of `impl FromStr for Almanac`: remove every `'\r'`
(`s.replace("\r", "")`), split on `"\n\n"`, parse the first section as the
seed list and every following section as a mapping table, in order. -/
def Almanac.fromStr (cs : List Char) : Except AocError Almanac :=
  let s := cs.filter (fun c => c != '\r')
  match splitAll ['\n', '\n'] s with
  | [] => .error "empty almanac"
  | seedsSec :: tableSecs =>
    match Seeds.fromStr seedsSec with
    | .error e => .error e
    | .ok seeds =>
      match collectE MappingTable.fromStr tableSecs with
      | .error e => .error e
      | .ok tables => .ok ⟨seeds, tables⟩

/-- The fold of one seed through every table in document order, the closure
inside `Almanac::get_mapped_seeds`. -/
def resolveSeed (a : Almanac) (s : Nat) : Nat :=
  a.mapping_tables.foldl (fun v t => t.map v) s

/-- Mirror of `Almanac::get_mapped_seeds`: one output per seed, in seed
order. -/
def Almanac.get_mapped_seeds (a : Almanac) : List Nat :=
  a.seeds.val.map (fun s => resolveSeed a s)

/-- The outcome of `main`'s reduction `locations.iter().min().unwrap()`:
`min` of an empty vector is `None`, and `unwrap` on `None` is a panic — a
crash, not a returned error. -/
inductive MainOutcome where
  | value (n : Nat)
  | panicked
  deriving DecidableEq, Repr

/-- Mirror of the final reduction in `main`. -/
def mainReduce (locations : List Nat) : MainOutcome :=
  match locations.min? with
  | some m => .value m
  | none => .panicked

/-- Modelled from the spec (for comparison only): a reduction that signals an
`EmptyInput` error as a returned value, as §4.3/§7 of the spec describe,
instead of the `unwrap` panic the code performs. -/
def reduceSpec (locations : List Nat) : Except AocError Nat :=
  match locations.min? with
  | some m => .ok m
  | none => .error "EmptyInput"

/-- Modelled from the spec (for comparison only): the Seed List block parsed
from its first line only, as the spec's words "first line only" describe. -/
def seedsFromFirstLineSpec (cs : List Char) : Except AocError Seeds :=
  Seeds.fromStr ((linesOf cs).headD [])

/-! ## Helper lemmas about the embedded combinators -/

theorem collectE_isOk (f : α → Except AocError β) (l : List α) :
    (collectE f l).isOk = l.all (fun x => (f x).isOk) := by
  induction l with
  | nil => rfl
  | cons x rest ih =>
    simp only [collectE, List.all_cons]
    cases hfx : f x with
    | error e => simp [Except.isOk, Except.toBool]
    | ok b =>
      cases hrest : collectE f rest with
      | error e =>
        rw [hrest] at ih
        rw [← ih]
        simp [Except.isOk, Except.toBool]
      | ok bs =>
        rw [hrest] at ih
        rw [← ih]
        simp [Except.isOk, Except.toBool]

theorem collectE_ok_iff (f : α → Except AocError β) (l : List α) (bs : List β) :
    collectE f l = .ok bs ↔ List.Forall₂ (fun a b => f a = .ok b) l bs := by
  induction l generalizing bs with
  | nil =>
    cases bs <;> simp [collectE]
  | cons x rest ih =>
    cases bs with
    | nil =>
      simp only [collectE, List.forall₂_cons_left_iff]
      cases hfx : f x with
      | error e => simp
      | ok b =>
        cases hrest : collectE f rest with
        | error e => simp
        | ok bs' => simp
    | cons b bs' =>
      simp only [collectE, List.forall₂_cons]
      cases hfx : f x with
      | error e => simp [hfx]
      | ok b' =>
        cases hrest : collectE f rest with
        | error e =>
          rw [← ih]
          simp [hfx, hrest]
        | ok bs'' =>
          rw [← ih]
          simp [hfx, hrest]

theorem collectE_error_mem (f : α → Except AocError β) (l : List α) (e : AocError)
    (h : collectE f l = .error e) : ∃ x ∈ l, f x = .error e := by
  induction l with
  | nil => simp [collectE] at h
  | cons x rest ih =>
    simp only [collectE] at h
    cases hfx : f x with
    | error e' =>
      rw [hfx] at h
      cases h
      exact ⟨x, by simp, hfx⟩
    | ok b =>
      rw [hfx] at h
      cases hrest : collectE f rest with
      | error e' =>
        rw [hrest] at h
        cases h
        obtain ⟨y, hy, hfy⟩ := ih hrest
        exact ⟨y, by simp [hy], hfy⟩
      | ok bs => rw [hrest] at h; cases h

theorem parseNumber_error_forms (cs : List Char) (e : AocError)
    (h : parseNumber cs = .error e) :
    e = "cannot parse integer from empty string" ∨ e = "invalid digit found in string" ∨
    e = "number too large to fit in target type" := by
  unfold parseNumber at h
  cases cs with
  | nil =>
    injection h with h
    exact Or.inl h.symm
  | cons c rest =>
    simp only at h
    split at h
    · injection h with h; exact Or.inr (Or.inl h.symm)
    · split at h
      · split at h
        · cases h
        · injection h with h; exact Or.inr (Or.inr h.symm)
      · injection h with h; exact Or.inr (Or.inl h.symm)

theorem mappingFromStr_error_forms (cs : List Char) (e : AocError)
    (h : Mapping.fromStr cs = .error e) :
    e = "too few numbers in mapping" ∨ e = "cannot parse integer from empty string" ∨
    e = "invalid digit found in string" ∨ e = "number too large to fit in target type" := by
  unfold Mapping.fromStr at h
  cases hc : collectE parseNumber (splitAsciiWhitespace (rustTrim cs)) with
  | error e' =>
    rw [hc] at h
    cases h
    obtain ⟨x, _, hx⟩ := collectE_error_mem _ _ _ hc
    exact Or.inr (parseNumber_error_forms _ _ hx)
  | ok nums =>
    rw [hc] at h
    rcases nums with _ | ⟨a, _ | ⟨b, _ | ⟨c, _ | ⟨d, rest⟩⟩⟩⟩
    · injection h with h; exact Or.inl h.symm
    · injection h with h; exact Or.inl h.symm
    · injection h with h; exact Or.inl h.symm
    · cases h
    · injection h with h; exact Or.inl h.symm

theorem tableMapGo_eq_findSome (n : Nat) (l : List Mapping) :
    tableMapGo n l = ((l.findSome? fun m => m.map n).getD n) := by
  induction l with
  | nil => rfl
  | cons m rest ih =>
    simp only [tableMapGo, List.findSome?_cons]
    cases m.map n <;> simp [ih]

/-! ## Lemmas about `splitOnce` and `splitAll` -/

theorem isPrefixOf_length_le (l x : List Char) (h : l.isPrefixOf x = true) :
    l.length ≤ x.length := by
  obtain ⟨t, rfl⟩ := List.isPrefixOf_iff_prefix.mp h
  simp

theorem isPrefixOf_append_left (l : List Char) :
    ∀ x e, l.length ≤ x.length → l.isPrefixOf (x ++ e) = l.isPrefixOf x := by
  induction l with
  | nil => intro x e h; simp [List.isPrefixOf]
  | cons a as ih =>
    intro x e h
    cases x with
    | nil => simp at h
    | cons b bs =>
      simp only [List.cons_append, List.isPrefixOf, List.append_eq]
      rw [ih bs e (by simpa using h)]

theorem isPrefixOf_append_of (l x e : List Char) (h : l.isPrefixOf x = true) :
    l.isPrefixOf (x ++ e) = true := by
  rw [isPrefixOf_append_left l x e (isPrefixOf_length_le l x h)]
  exact h

theorem splitOnce_decomp (sep : List Char) :
    ∀ cs pre post, splitOnce sep cs = some (pre, post) → cs = pre ++ sep ++ post := by
  intro cs
  induction cs with
  | nil =>
    intro pre post h
    simp only [splitOnce] at h
    by_cases hsep : sep.isEmpty = true
    · rw [if_pos hsep] at h
      injection h with h
      injection h with h1 h2
      subst h1
      subst h2
      have hnil : sep = [] := by simpa using hsep
      subst hnil
      rfl
    · rw [if_neg hsep] at h
      cases h
  | cons c rest ih =>
    intro pre post h
    simp only [splitOnce] at h
    by_cases hp : sep.isPrefixOf (c :: rest) = true
    · rw [if_pos hp] at h
      injection h with h
      injection h with h1 h2
      subst h1
      subst h2
      obtain ⟨t, ht⟩ := List.isPrefixOf_iff_prefix.mp hp
      rw [← ht, List.nil_append, List.drop_left]
    · rw [if_neg hp] at h
      cases hr : splitOnce sep rest with
      | none => rw [hr] at h; cases h
      | some pq =>
        obtain ⟨p, q⟩ := pq
        rw [hr] at h
        injection h with h
        injection h with h1 h2
        subst h1
        subst h2
        have := ih p q hr
        rw [List.cons_append, List.cons_append, ← this]

theorem splitOnce_post_length (sep : List Char) (hsep : sep ≠ []) (cs pre post : List Char)
    (h : splitOnce sep cs = some (pre, post)) : post.length < cs.length := by
  have hd := splitOnce_decomp sep cs pre post h
  rw [hd]
  simp only [List.length_append]
  have : 0 < sep.length := List.length_pos.mpr hsep
  omega

theorem splitOnce_sep_length_le (sep : List Char) (cs pre post : List Char)
    (h : splitOnce sep cs = some (pre, post)) : sep.length ≤ cs.length := by
  have hd := splitOnce_decomp sep cs pre post h
  rw [hd]
  simp only [List.length_append]
  omega

theorem splitOnce_append_ext (sep : List Char) :
    ∀ cs pre post ext, splitOnce sep cs = some (pre, post) →
      splitOnce sep (cs ++ ext) = some (pre, post ++ ext) := by
  intro cs
  induction cs with
  | nil =>
    intro pre post ext h
    simp only [splitOnce] at h
    by_cases hsep : sep.isEmpty = true
    · rw [if_pos hsep] at h
      injection h with h
      injection h with h1 h2
      subst h1
      subst h2
      have hnil : sep = [] := by simpa using hsep
      subst hnil
      cases ext with
      | nil => rfl
      | cons e es =>
        simp only [List.nil_append, splitOnce]
        rw [if_pos (by simp [List.isPrefixOf])]
        simp
    · rw [if_neg hsep] at h
      cases h
  | cons c rest ih =>
    intro pre post ext h
    simp only [splitOnce] at h
    by_cases hp : sep.isPrefixOf (c :: rest) = true
    · rw [if_pos hp] at h
      injection h with h
      injection h with h1 h2
      subst h1
      subst h2
      have hle := isPrefixOf_length_le sep (c :: rest) hp
      simp only [List.cons_append, splitOnce, List.append_eq]
      have hp2 : sep.isPrefixOf (c :: (rest ++ ext)) = true := by
        have := isPrefixOf_append_of sep (c :: rest) ext hp
        simpa using this
      rw [if_pos hp2]
      have hdrop : (c :: (rest ++ ext)).drop sep.length
          = (c :: rest).drop sep.length ++ ext := by
        have : (c :: rest) ++ ext = c :: (rest ++ ext) := by simp
        rw [← this, List.drop_append_of_le_length hle]
      rw [hdrop]
    · rw [if_neg hp] at h
      cases hr : splitOnce sep rest with
      | none => rw [hr] at h; cases h
      | some pq =>
        obtain ⟨p, q⟩ := pq
        rw [hr] at h
        injection h with h
        injection h with h1 h2
        subst h1
        subst h2
        have hrec := ih p q ext hr
        simp only [List.cons_append, splitOnce, List.append_eq]
        have hp2 : sep.isPrefixOf (c :: (rest ++ ext)) = false := by
          have hle : sep.length ≤ (c :: rest).length := by
            have := splitOnce_sep_length_le sep rest p q hr
            simp
            omega
          have := isPrefixOf_append_left sep (c :: rest) ext hle
          simp only [List.cons_append] at this
          rw [this]
          exact Bool.not_eq_true _ ▸ hp
        rw [if_neg (by simp [hp2])]
        rw [hrec]

theorem getLast?_cons_of_ne {α : Type _} (a : α) (l : List α) (h : l ≠ []) :
    (a :: l).getLast? = l.getLast? := by
  cases l with
  | nil => exact absurd rfl h
  | cons x xs => exact List.getLast?_cons_cons

theorem splitAllAux_ne_nil (sep : List Char) (fuel : Nat) (cs : List Char) :
    splitAllAux sep fuel cs ≠ [] := by
  cases fuel with
  | zero => simp [splitAllAux]
  | succ f =>
    simp only [splitAllAux]
    cases splitOnce sep cs with
    | none => simp
    | some pq =>
      obtain ⟨p, q⟩ := pq
      simp

theorem splitOnce_nil_of_ne_nil (sep : List Char) (hsep : sep ≠ []) :
    splitOnce sep [] = none := by
  simp only [splitOnce]
  rw [if_neg]
  simp [hsep]

theorem splitAllAux_fuel_congr (sep : List Char) (hsep : sep ≠ []) :
    ∀ n f₁ f₂ cs, cs.length ≤ n → cs.length < f₁ → cs.length < f₂ →
      splitAllAux sep f₁ cs = splitAllAux sep f₂ cs := by
  intro n
  induction n with
  | zero =>
    intro f₁ f₂ cs hn h1 h2
    have hcs : cs = [] := by
      cases cs with
      | nil => rfl
      | cons x xs => simp at hn
    subst hcs
    cases f₁ with
    | zero => omega
    | succ g₁ =>
      cases f₂ with
      | zero => omega
      | succ g₂ =>
        simp only [splitAllAux, splitOnce_nil_of_ne_nil sep hsep]
  | succ m ih =>
    intro f₁ f₂ cs hn h1 h2
    cases f₁ with
    | zero => omega
    | succ g₁ =>
      cases f₂ with
      | zero => omega
      | succ g₂ =>
        simp only [splitAllAux]
        cases h : splitOnce sep cs with
        | none => rfl
        | some pq =>
          obtain ⟨p, q⟩ := pq
          have hlen := splitOnce_post_length sep hsep cs p q h
          show p :: splitAllAux sep g₁ q = p :: splitAllAux sep g₂ q
          rw [ih g₁ g₂ q (by omega) (by omega) (by omega)]

theorem splitAll_eq_single (sep cs : List Char) (h : splitOnce sep cs = none) :
    splitAll sep cs = [cs] := by
  simp only [splitAll, splitAllAux, h]

theorem splitAll_eq_cons (sep : List Char) (hsep : sep ≠ []) (cs pre post : List Char)
    (h : splitOnce sep cs = some (pre, post)) :
    splitAll sep cs = pre :: splitAll sep post := by
  have hlen := splitOnce_post_length sep hsep cs pre post h
  simp only [splitAll, splitAllAux, h]
  congr 1
  exact splitAllAux_fuel_congr sep hsep post.length cs.length (post.length + 1) post
    (le_refl _) (by omega) (by omega)

theorem splitOnce_of_isPrefixOf (sep cs : List Char) (hsep : sep ≠ [])
    (h : sep.isPrefixOf cs = true) :
    splitOnce sep cs = some ([], cs.drop sep.length) := by
  cases cs with
  | nil =>
    exfalso
    obtain ⟨t, ht⟩ := List.isPrefixOf_iff_prefix.mp h
    cases sep with
    | nil => exact hsep rfl
    | cons s ss => cases ht
  | cons c rest =>
    simp only [splitOnce]
    rw [if_pos h]

theorem splitOnce_sandwich (sep : List Char) (hsep : sep ≠ []) :
    ∀ a b, ∃ pre post, splitOnce sep (a ++ sep ++ b) = some (pre, post) := by
  intro a
  induction a with
  | nil =>
    intro b
    have hp : sep.isPrefixOf (sep ++ b) = true :=
      isPrefixOf_append_of sep sep b (List.isPrefixOf_iff_prefix.mpr (List.prefix_refl sep))
    refine ⟨[], (sep ++ b).drop sep.length, ?_⟩
    rw [List.nil_append]
    exact splitOnce_of_isPrefixOf sep (sep ++ b) hsep hp
  | cons x a' ih =>
    intro b
    obtain ⟨p, q, hr⟩ := ih b
    by_cases hp : sep.isPrefixOf (x :: (a' ++ sep ++ b)) = true
    · refine ⟨[], (x :: (a' ++ sep ++ b)).drop sep.length, ?_⟩
      have hform : (x :: a') ++ sep ++ b = x :: (a' ++ sep ++ b) := by simp
      rw [hform]
      exact splitOnce_of_isPrefixOf sep _ hsep hp
    · refine ⟨x :: p, q, ?_⟩
      have hform : (x :: a') ++ sep ++ b = x :: (a' ++ sep ++ b) := by simp
      rw [hform]
      simp only [splitOnce]
      rw [if_neg hp]
      have hr2 : splitOnce sep (a' ++ sep ++ b) = some (p, q) := hr
      rw [hr2]

theorem lastSection_append_sep :
    ∀ fuel u, u.length + 2 < fuel →
      (splitAllAux ['\n', '\n'] fuel (u ++ ['\n', '\n'])).getLast? = some []
      ∨ (splitAllAux ['\n', '\n'] fuel (u ++ ['\n', '\n'])).getLast? = some ['\n'] := by
  intro fuel
  induction fuel with
  | zero => intro u h; omega
  | succ f ih =>
    intro u h
    obtain ⟨pre, post, hsp⟩ := splitOnce_sandwich ['\n', '\n'] (by simp) u []
    rw [List.append_nil] at hsp
    simp only [splitAllAux, hsp]
    have hdec := splitOnce_decomp ['\n', '\n'] (u ++ ['\n', '\n']) pre post hsp
    have hlen : pre.length + 2 + post.length = u.length + 2 := by
      have hcl := congrArg List.length hdec
      simp only [List.length_append, List.length_cons, List.length_nil] at hcl
      omega
    rcases post with _ | ⟨x, _ | ⟨y, rest⟩⟩
    · left
      have htail : splitAllAux ['\n', '\n'] f [] = [[]] := by
        cases f with
        | zero => rfl
        | succ g => rfl
      rw [htail]
      show ([pre] ++ [[]]).getLast? = some []
      rw [List.getLast?_concat]
    · right
      have hx : x = '\n' := by
        have h1 : (u ++ ['\n', '\n']).getLast? = some '\n' := by
          have hform : u ++ ['\n', '\n'] = (u ++ ['\n']) ++ ['\n'] := by simp
          rw [hform, List.getLast?_concat]
        rw [hdec] at h1
        have h2 : (pre ++ ['\n', '\n'] ++ [x]).getLast? = some x := List.getLast?_concat _
        rw [h1] at h2
        injection h2 with h2
        exact h2.symm
      subst hx
      have htail : splitAllAux ['\n', '\n'] f ['\n'] = [['\n']] := by
        cases f with
        | zero => rfl
        | succ g => rfl
      rw [htail]
      show ([pre] ++ [['\n']]).getLast? = some ['\n']
      rw [List.getLast?_concat]
    · have hplen : pre.length + 2 ≤ u.length := by
        simp only [List.length_cons] at hlen
        omega
      have hdrop : x :: y :: rest = u.drop (pre.length + 2) ++ ['\n', '\n'] := by
        have h2 : (u ++ ['\n', '\n']).drop (pre.length + 2) = x :: y :: rest := by
          rw [hdec]
          have hl2 : (pre ++ ['\n', '\n']).length = pre.length + 2 := by simp
          rw [← hl2]
          exact List.drop_left _ _
        rw [List.drop_append_of_le_length hplen] at h2
        exact h2.symm
      rw [hdrop]
      have hrec := ih (u.drop (pre.length + 2)) (by
        have hld : (u.drop (pre.length + 2)).length = u.length - (pre.length + 2) :=
          List.length_drop _ _
        omega)
      have hne := splitAllAux_ne_nil ['\n', '\n'] f (u.drop (pre.length + 2) ++ ['\n', '\n'])
      rw [getLast?_cons_of_ne pre _ hne]
      exact hrec

theorem splitOnce_cons_step (sep : List Char) (c : Char) (rest : List Char)
    (hp : ¬ sep.isPrefixOf (c :: rest) = true) :
    splitOnce sep (c :: rest) = match splitOnce sep rest with
      | none => none
      | some (pre, post) => some (c :: pre, post) := by
  simp only [splitOnce]
  rw [if_neg hp]

theorem splitOnce_single_append_none (c w : Char) (hcw : c ≠ w) :
    ∀ xs, splitOnce [c] xs = none → splitOnce [c] (xs ++ [w]) = none := by
  intro xs
  induction xs with
  | nil =>
    intro _
    rw [List.nil_append]
    rw [splitOnce_cons_step [c] w [] (by simp [List.isPrefixOf, hcw])]
    rw [splitOnce_nil_of_ne_nil [c] (by simp)]
  | cons x xs' ih =>
    intro h
    by_cases hp : [c].isPrefixOf (x :: xs') = true
    · rw [splitOnce_of_isPrefixOf [c] (x :: xs') (by simp) hp] at h
      cases h
    · rw [splitOnce_cons_step [c] x xs' hp] at h
      cases hr : splitOnce [c] xs' with
      | some pq =>
        obtain ⟨p, q⟩ := pq
        rw [hr] at h
        cases h
      | none =>
        have hrec := ih hr
        rw [List.cons_append]
        have hp2 : ¬ [c].isPrefixOf (x :: (xs' ++ [w])) = true := by
          intro hcon
          apply hp
          simp only [List.isPrefixOf, Bool.and_eq_true] at hcon ⊢
          exact ⟨hcon.1, trivial⟩
        rw [splitOnce_cons_step [c] x (xs' ++ [w]) hp2]
        rw [hrec]

theorem splitOnce_single_append_self (c : Char) :
    ∀ xs, splitOnce [c] xs = none → splitOnce [c] (xs ++ [c]) = some (xs, []) := by
  intro xs
  induction xs with
  | nil =>
    intro _
    rw [List.nil_append]
    have h0 := splitOnce_of_isPrefixOf [c] [c] (by simp) (by simp [List.isPrefixOf])
    simpa using h0
  | cons x xs' ih =>
    intro h
    by_cases hp : [c].isPrefixOf (x :: xs') = true
    · rw [splitOnce_of_isPrefixOf [c] (x :: xs') (by simp) hp] at h
      cases h
    · rw [splitOnce_cons_step [c] x xs' hp] at h
      cases hr : splitOnce [c] xs' with
      | some pq =>
        obtain ⟨p, q⟩ := pq
        rw [hr] at h
        cases h
      | none =>
        have hrec := ih hr
        rw [List.cons_append]
        have hp2 : ¬ [c].isPrefixOf (x :: (xs' ++ [c])) = true := by
          intro hcon
          apply hp
          simp only [List.isPrefixOf, Bool.and_eq_true] at hcon ⊢
          exact ⟨hcon.1, trivial⟩
        rw [splitOnce_cons_step [c] x (xs' ++ [c]) hp2]
        rw [hrec]

theorem tokensAux_append_ws (w : Char) (hw : isAsciiWhitespaceChar w = true) :
    ∀ xs cur, tokensAux (xs ++ [w]) cur = tokensAux xs cur := by
  intro xs
  induction xs with
  | nil =>
    intro cur
    simp only [List.nil_append, tokensAux, hw]
    cases hc : cur.isEmpty <;> simp [hc, tokensAux]
  | cons x xs' ih =>
    intro cur
    simp only [List.cons_append, tokensAux]
    cases hx : isAsciiWhitespaceChar x <;> simp [hx, ih]

theorem seeds_append_newline (S : List Char) :
    Seeds.fromStr (S ++ ['\n']) = Seeds.fromStr S := by
  cases h : splitOnce [':'] S with
  | none =>
    have h2 : splitOnce [':'] (S ++ ['\n']) = none :=
      splitOnce_single_append_none ':' '\n' (by decide) S h
    simp only [Seeds.fromStr, h, h2]
  | some pp =>
    obtain ⟨pre, post⟩ := pp
    have h2 : splitOnce [':'] (S ++ ['\n']) = some (pre, post ++ ['\n']) :=
      splitOnce_append_ext [':'] S pre post ['\n'] h
    simp only [Seeds.fromStr, h, h2, splitAsciiWhitespace]
    rw [tokensAux_append_ws '\n' (by decide) post []]

theorem splitOnce_nn_append_none :
    ∀ s, splitOnce ['\n', '\n'] s = none → s.getLast? ≠ some '\n' →
      splitOnce ['\n', '\n'] (s ++ ['\n']) = none := by
  intro s
  induction s with
  | nil =>
    intro _ _
    rw [List.nil_append]
    decide
  | cons x xs ih =>
    intro h hlast
    by_cases hp : (['\n', '\n'] : List Char).isPrefixOf (x :: xs) = true
    · rw [splitOnce_of_isPrefixOf _ (x :: xs) (by simp) hp] at h
      cases h
    · rw [splitOnce_cons_step _ x xs hp] at h
      cases hr : splitOnce ['\n', '\n'] xs with
      | some pq =>
        obtain ⟨p, q⟩ := pq
        rw [hr] at h
        cases h
      | none =>
        rw [List.cons_append]
        cases xs with
        | nil =>
          have hx : x ≠ '\n' := by simpa using hlast
          rw [List.nil_append]
          rw [splitOnce_cons_step _ x ['\n']
            (by simp [List.isPrefixOf, Ne.symm hx])]
          have h0 : splitOnce ['\n', '\n'] ['\n'] = none := by decide
          rw [h0]
        | cons y ys =>
          have hlast2 : (y :: ys).getLast? ≠ some '\n' := by
            rwa [getLast?_cons_of_ne x (y :: ys) (by simp)] at hlast
          have hrec := ih hr hlast2
          have hp2 : ¬ (['\n', '\n'] : List Char).isPrefixOf
              (x :: (y :: ys ++ ['\n'])) = true := by
            intro hcon
            apply hp
            simp only [List.isPrefixOf, Bool.and_eq_true] at hcon ⊢
            exact ⟨hcon.1, hcon.2.1, trivial⟩
          rw [splitOnce_cons_step _ x _ hp2]
          rw [hrec]

theorem splitAll_char_append (c : Char) :
    ∀ n T, T.length ≤ n → splitAll [c] (T ++ [c]) = splitAll [c] T ++ [[]] := by
  intro n
  induction n with
  | zero =>
    intro T hn
    have hT : T = [] := by
      cases T with
      | nil => rfl
      | cons x xs => simp at hn
    subst hT
    rw [List.nil_append]
    have h1 : splitOnce [c] [c] = some ([], []) :=
      splitOnce_single_append_self c [] (splitOnce_nil_of_ne_nil [c] (by simp))
    rw [splitAll_eq_cons [c] (by simp) [c] [] [] h1]
    rw [splitAll_eq_single [c] [] (splitOnce_nil_of_ne_nil [c] (by simp))]
    rfl
  | succ n ih =>
    intro T hn
    cases h : splitOnce [c] T with
    | none =>
      rw [splitAll_eq_single [c] T h]
      rw [splitAll_eq_cons [c] (by simp) (T ++ [c]) T []
        (splitOnce_single_append_self c T h)]
      rw [splitAll_eq_single [c] [] (splitOnce_nil_of_ne_nil [c] (by simp))]
      rfl
    | some pq =>
      obtain ⟨p, q⟩ := pq
      have hlen := splitOnce_post_length [c] (by simp) T p q h
      rw [splitAll_eq_cons [c] (by simp) T p q h]
      have hext : splitOnce [c] (T ++ [c]) = some (p, q ++ [c]) :=
        splitOnce_append_ext [c] T p q [c] h
      rw [splitAll_eq_cons [c] (by simp) (T ++ [c]) p (q ++ [c]) hext]
      rw [ih q (by omega)]
      rfl

theorem splitAll_char_getLast (c : Char) :
    ∀ n T, T.length ≤ n → T.getLast? ≠ some c →
      ∃ L, (splitAll [c] T).getLast? = some L ∧ L.getLast? = T.getLast? := by
  intro n
  induction n with
  | zero =>
    intro T hn _
    have hT : T = [] := by
      cases T with
      | nil => rfl
      | cons x xs => simp at hn
    subst hT
    exact ⟨[], rfl, rfl⟩
  | succ n ih =>
    intro T hn hlast
    cases h : splitOnce [c] T with
    | none =>
      rw [splitAll_eq_single [c] T h]
      exact ⟨T, rfl, rfl⟩
    | some pq =>
      obtain ⟨p, q⟩ := pq
      have hlen := splitOnce_post_length [c] (by simp) T p q h
      have hdec := splitOnce_decomp [c] T p q h
      have hq : q ≠ [] := by
        intro hq0
        subst hq0
        rw [List.append_nil] at hdec
        rw [hdec, List.getLast?_concat] at hlast
        exact hlast rfl
      have hqlast : q.getLast? = T.getLast? := by
        rw [hdec]
        exact (List.getLast?_append_of_ne_nil _ hq).symm
      obtain ⟨L, hL1, hL2⟩ := ih q (by omega) (by rw [hqlast]; exact hlast)
      rw [splitAll_eq_cons [c] (by simp) T p q h]
      refine ⟨L, ?_, by rw [hL2, hqlast]⟩
      rw [getLast?_cons_of_ne p (splitAll [c] q) (splitAllAux_ne_nil [c] (q.length + 1) q)]
      exact hL1

theorem linesOf_append_newline (T : List Char) (h1 : T.getLast? ≠ some '\n')
    (h2 : T ≠ []) : linesOf (T ++ ['\n']) = linesOf T := by
  obtain ⟨L, hL1, hL2⟩ := splitAll_char_getLast '\n' T.length T (le_refl _) h1
  have hLne : L ≠ [] := by
    intro hL0
    subst hL0
    rw [List.getLast?_eq_none_iff.mpr rfl] at hL2
    exact h2 (List.getLast?_eq_none_iff.mp hL2.symm)
  simp only [linesOf]
  rw [splitAll_char_append '\n' T.length T (le_refl _)]
  rw [List.getLast?_concat, hL1]
  have hbeq1 : ((some ([] : List Char) == some ([] : List Char)) = true) := by simp
  rw [if_pos hbeq1, List.dropLast_concat]
  have hbeq2 : ((some L == some ([] : List Char)) = false) := by
    simp [hLne]
  rw [if_neg (by simp [hbeq2, hLne])]

theorem table_append_newline (T : List Char) (h1 : T.getLast? ≠ some '\n')
    (h2 : T ≠ []) : MappingTable.fromStr (T ++ ['\n']) = MappingTable.fromStr T := by
  simp only [MappingTable.fromStr, linesOf_append_newline T h1 h2]

theorem collectE_append_single (f : α → Except AocError β) (l : List α) (a b : α)
    (h : f a = f b) : collectE f (l ++ [a]) = collectE f (l ++ [b]) := by
  induction l with
  | nil => simp only [List.nil_append, collectE, h]
  | cons x l' ih =>
    simp only [List.cons_append, collectE, List.append_eq]
    cases hfx : f x with
    | error e => rfl
    | ok b' => rw [ih]

theorem sections_append_newline :
    ∀ n s, s.length ≤ n → s.getLast? ≠ some '\n' →
      ∃ init T, splitAll ['\n', '\n'] s = init ++ [T]
        ∧ splitAll ['\n', '\n'] (s ++ ['\n']) = init ++ [T ++ ['\n']]
        ∧ T.getLast? = s.getLast? := by
  intro n
  induction n with
  | zero =>
    intro s hn _
    have hs : s = [] := by
      cases s with
      | nil => rfl
      | cons x xs => simp at hn
    subst hs
    refine ⟨[], [], rfl, ?_, rfl⟩
    rw [List.nil_append, List.nil_append]
    have h0 : splitOnce ['\n', '\n'] ['\n'] = none := by decide
    rw [splitAll_eq_single _ ['\n'] h0]
  | succ n ih =>
    intro s hn hlast
    cases h : splitOnce ['\n', '\n'] s with
    | none =>
      have h2 : splitOnce ['\n', '\n'] (s ++ ['\n']) = none :=
        splitOnce_nn_append_none s h hlast
      refine ⟨[], s, ?_, ?_, rfl⟩
      · rw [splitAll_eq_single _ s h]
        rfl
      · rw [splitAll_eq_single _ (s ++ ['\n']) h2]
        rfl
    | some pq =>
      obtain ⟨p, q⟩ := pq
      have hlen := splitOnce_post_length ['\n', '\n'] (by simp) s p q h
      have hdec := splitOnce_decomp ['\n', '\n'] s p q h
      have hq : q ≠ [] := by
        intro hq0
        subst hq0
        rw [List.append_nil] at hdec
        have : s.getLast? = some '\n' := by
          rw [hdec]
          have hform : p ++ ['\n', '\n'] = (p ++ ['\n']) ++ ['\n'] := by simp
          rw [hform, List.getLast?_concat]
        exact hlast this
      have hqlast : q.getLast? = s.getLast? := by
        rw [hdec]
        exact (List.getLast?_append_of_ne_nil _ hq).symm
      obtain ⟨init', T, hT1, hT2, hT3⟩ := ih q (by omega) (by rw [hqlast]; exact hlast)
      have hext : splitOnce ['\n', '\n'] (s ++ ['\n']) = some (p, q ++ ['\n']) :=
        splitOnce_append_ext ['\n', '\n'] s p q ['\n'] h
      refine ⟨p :: init', T, ?_, ?_, by rw [hT3, hqlast]⟩
      · rw [splitAll_eq_cons _ (by simp) s p q h, hT1]
        rfl
      · rw [splitAll_eq_cons _ (by simp) (s ++ ['\n']) p (q ++ ['\n']) hext, hT2]
        rfl

/-! ## Claim theorems -/

/-- C1 (amended): for a Range Mapping constructed from `(dst, src, len)`
WITHOUT `u64` overflow (`src + len` and `dst + len` at most `u64::MAX`),
`lookup` returns `some (dst + (v - src))` exactly when `v` lies in
`[src, src + len)` and `none` otherwise; for `len > 0` the boundaries are
exact: hit at `v = src` and `v = src + len - 1`, miss at the `u64` value
`src - 1` (i.e. `(src + 2^64 - 1) % 2^64`) and at `v = src + len`. -/
theorem mapping_lookup_amended (dst src len v : Nat)
    (hs : src + len ≤ U64MOD - 1) (hd : dst + len ≤ U64MOD - 1) :
    ((Mapping.new dst src len).map v
      = if src ≤ v ∧ v < src + len then some (dst + (v - src)) else none)
    ∧ (0 < len →
        (Mapping.new dst src len).map src = some dst
        ∧ (Mapping.new dst src len).map (src + len - 1) = some (dst + len - 1)
        ∧ (Mapping.new dst src len).map ((src + (U64MOD - 1)) % U64MOD) = none
        ∧ (Mapping.new dst src len).map (src + len) = none) := by
  simp only [U64MOD] at hs hd
  simp only [Mapping.new, Mapping.map, U64MOD]
  constructor
  · split_ifs with h1 h2 <;>
      first
        | rfl
        | (simp only [Option.some.injEq]; omega)
        | (exfalso; omega)
  · intro hlen
    refine ⟨?_, ?_, ?_, ?_⟩ <;>
      split_ifs with h <;>
        first
          | rfl
          | (simp only [Option.some.injEq]; omega)
          | (exfalso; omega)

/-- Witness for C1's amended theorem at `(dst, src, len) = (50, 98, 2)`,
`v = 98` (the repository's own test case): the lookup hits with value 50. -/
theorem mapping_lookup_amended_witness :
    (Mapping.new 50 98 2).map 98 = some 50 := by
  have h := (mapping_lookup_amended 50 98 2 98 (by decide) (by decide)).1
  rw [if_pos (by omega)] at h
  simpa using h

/-- Counterexample to C1 as stated: the Range Mapping constructed from
`(dest, src, len) = (0, 2^64 - 1, 2)` overflows `src + len` in `u64`, the
source range `src..(src + len) % 2^64` is empty, and lookup at `v = src`
returns `none` although the claim (with `len = 2 > 0`) promises
`Some(dest) = some 0`. -/
theorem mapping_lookup_overflow_counterexample :
    (Mapping.new 0 (U64MOD - 1) 2).map (U64MOD - 1) = none
    ∧ ¬((Mapping.new 0 (U64MOD - 1) 2).map (U64MOD - 1) = some 0) := by
  have h0 : (Mapping.new 0 (U64MOD - 1) 2).map (U64MOD - 1) = none := by
    simp only [Mapping.new, Mapping.map, U64MOD]
    rw [if_neg (by omega)]
  exact ⟨h0, by rw [h0]; simp⟩

/-- C9: a Range Mapping constructed with `len = 0` is legal — building it
from the text line `"50 98 0"` succeeds — and its lookup returns `none` for
every value. -/
theorem zero_length_mapping_never_matches :
    (∀ dst src v : Nat, (Mapping.new dst src 0).map v = none)
    ∧ Mapping.fromStr (strL "50 98 0") = .ok (Mapping.new 50 98 0) := by
  constructor
  · intro dst src v
    simp only [Mapping.new, Mapping.map, U64MOD]
    rw [if_neg]
    rintro ⟨h1, h2⟩
    omega
  · rfl

/-- C10: for every Range Mapping whose construction did not overflow
(`dst + len ≤ u64::MAX` and `src + len ≤ u64::MAX`), whenever lookup
matches, the guarded subtraction `v - src` did not underflow (`src ≤ v`),
the addition `dst + (v - src)` stays within `u64::MAX`, and the machine
(wrapped) result equals the exact integer result `dst + (v - src)`. -/
theorem mapping_lookup_exact_arithmetic (dst src len v r : Nat)
    (hd : dst + len ≤ U64MOD - 1) (hs : src + len ≤ U64MOD - 1)
    (h : (Mapping.new dst src len).map v = some r) :
    src ≤ v ∧ dst + (v - src) ≤ U64MOD - 1 ∧ r = dst + (v - src) := by
  simp only [U64MOD] at hd hs ⊢
  simp only [Mapping.new, Mapping.map, U64MOD] at h
  split_ifs at h with hc
  simp only [Option.some.injEq] at h
  omega

/-- Witness for C10 at `(dst, src, len) = (50, 98, 2)`, `v = 98`, `r = 50`. -/
theorem mapping_lookup_exact_arithmetic_witness :
    98 ≤ 98 ∧ 50 + (98 - 98) ≤ U64MOD - 1 ∧ 50 = 50 + (98 - 98) :=
  mapping_lookup_exact_arithmetic 50 98 2 98 50 (by decide) (by decide) (by decide)

/-- C2: `MappingTable::map` is total; it returns the first matching Range
Mapping's lookup result — `findSome?` is by definition the first hit of the
in-order scan — with the input itself as the fallback when no Range Mapping
matches (identity fallback). -/
theorem table_resolve_first_match (t : MappingTable) (n : Nat) :
    t.map n = ((t.mappings.findSome? fun m => m.map n).getD n)
    ∧ ((∀ m ∈ t.mappings, m.map n = none) → t.map n = n) := by
  constructor
  · exact tableMapGo_eq_findSome n t.mappings
  · intro h
    have hn : (t.mappings.findSome? fun m => m.map n) = none :=
      List.findSome?_eq_none_iff.mpr h
    calc t.map n = ((t.mappings.findSome? fun m => m.map n).getD n) :=
          tableMapGo_eq_findSome n t.mappings
      _ = n := by rw [hn]; rfl

/-- Witness for C2 on the repository's test table at the unmapped input 17:
the scan falls through both ranges and returns 17 unchanged. -/
theorem table_resolve_first_match_witness :
    (MappingTable.mk (strL "seed") (strL "soil")
      [Mapping.new 50 98 2, Mapping.new 52 50 48]).map 17 = 17 := by
  exact (table_resolve_first_match
    (MappingTable.mk (strL "seed") (strL "soil")
      [Mapping.new 50 98 2, Mapping.new 52 50 48]) 17).2 (by decide)

/-- C3: `get_mapped_seeds` produces, position by position, the left-to-right
fold of the corresponding seed through every Mapping Table in document
order; `getElem?` agreeing at every index also forces one output per seed in
seed order, and the stage is a total function. -/
theorem resolve_all_pointwise (a : Almanac) (i : Nat) :
    (a.get_mapped_seeds)[i]? =
      (a.seeds.val[i]?).map
        (fun s => a.mapping_tables.foldl (fun v t => t.map v) s) := by
  simp only [Almanac.get_mapped_seeds, resolveSeed, List.getElem?_map]

/-- C4 (amended): the final reduction returns the minimum of the resolved
sequence and fails when and only when the Seed List is empty — but the
failure is a panic (`min()` is `None` and `unwrap()` panics), not a returned
`EmptyInput` error; over a single seed it returns that seed's resolved
value. -/
theorem reduction_min_amended (a : Almanac) :
    (mainReduce a.get_mapped_seeds = .panicked ↔ a.seeds.val = [])
    ∧ (∀ v, a.seeds.val = [v] →
        mainReduce a.get_mapped_seeds = .value (resolveSeed a v)) := by
  constructor
  · cases hv : a.seeds.val with
    | nil => simp [Almanac.get_mapped_seeds, hv, mainReduce]
    | cons s ss => simp [Almanac.get_mapped_seeds, hv, mainReduce, List.min?_cons]
  · intro v hv
    simp [Almanac.get_mapped_seeds, hv, mainReduce, List.min?_cons]

/-- Witness for C4's amended theorem: a document with the single seed 7 and
no tables reduces to the value 7. -/
theorem reduction_min_amended_witness :
    mainReduce (Almanac.get_mapped_seeds ⟨⟨[7]⟩, []⟩) =
      .value (resolveSeed ⟨⟨[7]⟩, []⟩ 7) :=
  (reduction_min_amended ⟨⟨[7]⟩, []⟩).2 7 rfl

/-- Counterexample to C4 as stated: on an empty Seed List the code panics
(`locations.iter().min()` is `None`, `.unwrap()` aborts the process); it
does not return the `EmptyInput` error the claim describes — the
spec-modelled reduction is shown alongside for contrast. -/
theorem reduction_empty_seed_list_panics :
    mainReduce (Almanac.get_mapped_seeds ⟨⟨[]⟩, []⟩) = .panicked
    ∧ reduceSpec (Almanac.get_mapped_seeds ⟨⟨[]⟩, []⟩) = .error "EmptyInput" := by
  exact ⟨rfl, rfl⟩

theorem mapSeedErr_isOk (t : List Char) (r : Except AocError Nat) :
    (mapSeedErr t r).isOk = r.isOk := by
  cases r <;> rfl

theorem mapSeedErr_eq_ok_iff (t : List Char) (r : Except AocError Nat) (n : Nat) :
    mapSeedErr t r = .ok n ↔ r = .ok n := by
  cases r <;> simp [mapSeedErr]

/-- C6: parsing a Range Mapping from a table body line succeeds exactly when
the trimmed line splits into exactly three whitespace-separated tokens each
of which parses as a non-negative `u64`; in every other case (fewer tokens,
more tokens, or a non-numeric token) a MalformedMapping-class error is
returned. -/
theorem mapping_parse_three_numbers (cs : List Char) :
    (Mapping.fromStr cs).isOk = true ↔
      ((splitAsciiWhitespace (rustTrim cs)).length = 3
        ∧ ∀ t ∈ splitAsciiWhitespace (rustTrim cs), (parseNumber t).isOk = true) := by
  have hok := collectE_isOk parseNumber (splitAsciiWhitespace (rustTrim cs))
  unfold Mapping.fromStr
  cases hc : collectE parseNumber (splitAsciiWhitespace (rustTrim cs)) with
  | error e =>
    rw [hc] at hok
    have hfalse : ((splitAsciiWhitespace (rustTrim cs)).all
        fun t => (parseNumber t).isOk) = false := hok.symm.trans rfl
    constructor
    · intro hcon
      simp [Except.isOk, Except.toBool] at hcon
    · rintro ⟨-, hall⟩
      have hAll := List.all_eq_true.mpr hall
      rw [hAll] at hfalse
      cases hfalse
  | ok nums =>
    have hlen2 := List.Forall₂.length_eq ((collectE_ok_iff parseNumber _ nums).mp hc)
    rw [hc] at hok
    have htrue : ((splitAsciiWhitespace (rustTrim cs)).all
        fun t => (parseNumber t).isOk) = true := hok.symm.trans rfl
    rcases nums with _ | ⟨a, _ | ⟨b, _ | ⟨c, _ | ⟨d, rest⟩⟩⟩⟩
    · exact iff_of_false (by simp [Except.isOk, Except.toBool])
        (by rintro ⟨hl, -⟩; rw [hl] at hlen2; simp at hlen2)
    · exact iff_of_false (by simp [Except.isOk, Except.toBool])
        (by rintro ⟨hl, -⟩; rw [hl] at hlen2; simp at hlen2)
    · exact iff_of_false (by simp [Except.isOk, Except.toBool])
        (by rintro ⟨hl, -⟩; rw [hl] at hlen2; simp at hlen2)
    · refine iff_of_true rfl ⟨by simpa using hlen2, List.all_eq_true.mp htrue⟩
    · exact iff_of_false (by simp [Except.isOk, Except.toBool])
        (by rintro ⟨hl, -⟩; rw [hl] at hlen2; simp at hlen2)

/-- C7 (amended): the Seed List block is parsed as a whole — newlines inside
the block act as ordinary token separators — splitting at the first `':'`
(failure when absent), then parsing every whitespace-separated token of the
remainder; it succeeds exactly when a colon exists and every token parses,
and on success the seeds are exactly the parsed tokens in token order. -/
theorem seeds_parse_whole_block_amended (cs : List Char) :
    ((Seeds.fromStr cs).isOk = true ↔
      (∃ pre post, splitOnce [':'] cs = some (pre, post)
        ∧ ∀ t ∈ splitAsciiWhitespace post, (parseNumber t).isOk = true))
    ∧ (∀ ns, Seeds.fromStr cs = .ok ⟨ns⟩ ↔
        ∃ pre post, splitOnce [':'] cs = some (pre, post)
          ∧ List.Forall₂ (fun t n => parseNumber t = .ok n)
              (splitAsciiWhitespace post) ns) := by
  cases hsp : splitOnce [':'] cs with
  | none =>
    simp only [Seeds.fromStr, hsp]
    constructor
    · exact iff_of_false (by simp [Except.isOk, Except.toBool])
        (by rintro ⟨pre, post, hcon, -⟩; cases hcon)
    · intro ns
      exact iff_of_false (by intro hcon; cases hcon)
        (by rintro ⟨pre, post, hcon, -⟩; cases hcon)
  | some pp =>
    obtain ⟨pre, post⟩ := pp
    simp only [Seeds.fromStr, hsp]
    have hok := collectE_isOk (fun t => mapSeedErr t (parseNumber t)) (splitAsciiWhitespace post)
    cases hc : collectE (fun t => mapSeedErr t (parseNumber t)) (splitAsciiWhitespace post) with
    | error e =>
      rw [hc] at hok
      have hfalse : ((splitAsciiWhitespace post).all
          fun t => (mapSeedErr t (parseNumber t)).isOk) = false := hok.symm.trans rfl
      simp only [mapSeedErr_isOk] at hfalse
      constructor
      · refine iff_of_false (by simp [Except.isOk, Except.toBool]) ?_
        rintro ⟨pre', post', hpp, hall⟩
        cases hpp
        have hAll := List.all_eq_true.mpr hall
        rw [hAll] at hfalse
        cases hfalse
      · intro ns
        refine iff_of_false (by intro hcon; cases hcon) ?_
        rintro ⟨pre', post', hpp, hf2⟩
        cases hpp
        have hok2 : collectE (fun t => mapSeedErr t (parseNumber t))
            (splitAsciiWhitespace post) = .ok ns := by
          rw [collectE_ok_iff]
          exact hf2.imp (fun t n h => (mapSeedErr_eq_ok_iff t _ n).mpr h)
        rw [hc] at hok2
        cases hok2
    | ok ns0 =>
      rw [hc] at hok
      have htrue : ((splitAsciiWhitespace post).all
          fun t => (mapSeedErr t (parseNumber t)).isOk) = true := hok.symm.trans rfl
      simp only [mapSeedErr_isOk] at htrue
      constructor
      · exact iff_of_true rfl ⟨pre, post, rfl, List.all_eq_true.mp htrue⟩
      · intro ns
        constructor
        · intro hcon
          injection hcon with hcon
          injection hcon with hcon
          subst hcon
          exact ⟨pre, post, rfl,
            ((collectE_ok_iff _ _ _).mp hc).imp (fun t n h => (mapSeedErr_eq_ok_iff t _ n).mp h)⟩
        · rintro ⟨pre', post', hpp, hf2⟩
          cases hpp
          have hok2 : collectE (fun t => mapSeedErr t (parseNumber t))
              (splitAsciiWhitespace post) = .ok ns := by
            rw [collectE_ok_iff]
            exact hf2.imp (fun t n h => (mapSeedErr_eq_ok_iff t _ n).mpr h)
          rw [hc] at hok2
          injection hok2 with hok2
          rw [hok2]

/-- Counterexample to C7 as stated: on the two-line Seed List block
`"s: 1\n2"` the code parses the WHOLE block — the newline acts as a token
separator — yielding seeds `[1, 2]`, while the claim's "first line only"
reading (modelled by `seedsFromFirstLineSpec`) yields `[1]`. -/
theorem seeds_first_line_counterexample :
    Seeds.fromStr (strL "s: 1\n2") = .ok ⟨[1, 2]⟩
    ∧ seedsFromFirstLineSpec (strL "s: 1\n2") = .ok ⟨[1]⟩
    ∧ Seeds.mk [1, 2] ≠ Seeds.mk [1] := by
  exact ⟨rfl, rfl, by decide⟩

/-- C5 (amended): the `MalformedHeader` failure (`"split header"`) happens
exactly when the block has a first line and that line lacks `"-to-"`; but a
header containing `"-to-"` is NOT sufficient for success — the table parses
successfully iff, in addition, every body line parses as a Range Mapping and
the text after `"-to-"` contains a space character (the destination label is
that text truncated at its first space). -/
theorem table_header_parse_amended (cs : List Char) :
    (MappingTable.fromStr cs = .error "split header" ↔
      ∃ hd, (linesOf cs).head? = some hd ∧ splitOnce toSeparator hd = none)
    ∧ ((MappingTable.fromStr cs).isOk = true ↔
        ∃ hd pre post, (linesOf cs).head? = some hd
          ∧ splitOnce toSeparator hd = some (pre, post)
          ∧ (∀ l ∈ (linesOf cs).drop 1, (Mapping.fromStr l).isOk = true)
          ∧ (splitOnce [' '] post).isSome = true) := by
  cases hh : (linesOf cs).head? with
  | none =>
    have hval : MappingTable.fromStr cs = .error "getting header line" := by
      simp only [MappingTable.fromStr, hh]
    constructor
    · rw [hval]
      constructor
      · intro hcon
        injection hcon with hstr
        exact absurd hstr (by decide)
      · rintro ⟨hd, hd1, -⟩
        cases hd1
    · rw [hval]
      constructor
      · intro hcon
        simp [Except.isOk, Except.toBool] at hcon
      · rintro ⟨hd, pre, post, hd1, -⟩
        cases hd1
  | some header =>
    cases hto : splitOnce toSeparator header with
    | none =>
      have hval : MappingTable.fromStr cs = .error "split header" := by
        simp only [MappingTable.fromStr, hh, hto]
      constructor
      · rw [hval]
        exact iff_of_true rfl ⟨header, rfl, hto⟩
      · rw [hval]
        constructor
        · intro hcon
          simp [Except.isOk, Except.toBool] at hcon
        · rintro ⟨hd, pre, post, hd1, hd2, -⟩
          injection hd1 with hd1
          subst hd1
          rw [hto] at hd2
          cases hd2
    | some fp =>
      obtain ⟨fromPart, toPart⟩ := fp
      have hmok := collectE_isOk Mapping.fromStr ((linesOf cs).drop 1)
      cases hm : collectE Mapping.fromStr ((linesOf cs).drop 1) with
      | error e =>
        rw [hm] at hmok
        have hfalse : (((linesOf cs).drop 1).all
            fun l => (Mapping.fromStr l).isOk) = false := hmok.symm.trans rfl
        have hval : MappingTable.fromStr cs = .error e := by
          simp only [MappingTable.fromStr, hh, hto, hm]
        constructor
        · rw [hval]
          constructor
          · intro hcon
            injection hcon with hstr
            obtain ⟨x, -, hx⟩ := collectE_error_mem _ _ _ hm
            rcases mappingFromStr_error_forms _ _ hx with h1 | h1 | h1 | h1 <;>
              (rw [h1] at hstr; exact absurd hstr (by decide))
          · rintro ⟨hd, hd1, hd2⟩
            injection hd1 with hd1
            subst hd1
            rw [hto] at hd2
            cases hd2
        · rw [hval]
          constructor
          · intro hcon
            simp [Except.isOk, Except.toBool] at hcon
          · rintro ⟨hd, pre, post, hd1, hd2, hall, -⟩
            have hAll := List.all_eq_true.mpr hall
            rw [hAll] at hfalse
            cases hfalse
      | ok mappings =>
        rw [hm] at hmok
        have htrue : (((linesOf cs).drop 1).all
            fun l => (Mapping.fromStr l).isOk) = true := hmok.symm.trans rfl
        cases hsp2 : splitOnce [' '] toPart with
        | none =>
          have hval : MappingTable.fromStr cs = .error "split header to-part" := by
            simp only [MappingTable.fromStr, hh, hto, hm, hsp2]
          constructor
          · rw [hval]
            constructor
            · intro hcon
              injection hcon with hstr
              exact absurd hstr (by decide)
            · rintro ⟨hd, hd1, hd2⟩
              injection hd1 with hd1
              subst hd1
              rw [hto] at hd2
              cases hd2
          · rw [hval]
            constructor
            · intro hcon
              simp [Except.isOk, Except.toBool] at hcon
            · rintro ⟨hd, pre, post, hd1, hd2, -, hsome⟩
              injection hd1 with hd1
              subst hd1
              rw [hto] at hd2
              cases hd2
              rw [hsp2] at hsome
              cases hsome
        | some p =>
          obtain ⟨toLabel, restPart⟩ := p
          have hval : MappingTable.fromStr cs = .ok ⟨fromPart, toLabel, mappings⟩ := by
            simp only [MappingTable.fromStr, hh, hto, hm, hsp2]
          constructor
          · rw [hval]
            constructor
            · intro hcon
              cases hcon
            · rintro ⟨hd, hd1, hd2⟩
              injection hd1 with hd1
              subst hd1
              rw [hto] at hd2
              cases hd2
          · rw [hval]
            refine iff_of_true rfl
              ⟨header, fromPart, toPart, rfl, hto, List.all_eq_true.mp htrue, ?_⟩
            rw [hsp2]
            rfl

/-- Counterexample to C5 as stated: the single-line block `"a-to-b"`
contains `"-to-"` (and has no body lines), yet parsing fails, because the
text after `"-to-"` has no space for the destination-label cut
(`to.split_once(" ")` is `None`). -/
theorem table_header_no_space_counterexample :
    (splitOnce toSeparator (strL "a-to-b")).isSome = true
    ∧ MappingTable.fromStr (strL "a-to-b") = .error "split header to-part" := by
  exact ⟨rfl, rfl⟩

/-- A small two-table document used to exercise `Almanac.fromStr`. -/
def docTwoTables : List Char :=
  strL "s: 1 2\n\na-to-b map:\n5 3 2\n\nb-to-c map:\n0 9 1"

/-- C8 (amended): universally over documents — the parse strips carriage
returns and splits on `"\n\n"` into sections: it returns a Document exactly
when the first section parses as the Seed List and every following section,
in appearance order, parses as a Mapping Table (the `Forall₂` pairs the
sections with the resulting tables position by position); a document
extended with a trailing blank line NEVER parses (its final section is
empty or a lone newline and fails as a table); and appending a single
trailing newline to a document not already ending in a newline leaves the
parse unchanged. -/
theorem document_parse_sections_amended :
    (∀ (cs : List Char) (seeds : Seeds) (tables : List MappingTable),
      Almanac.fromStr cs = .ok ⟨seeds, tables⟩ ↔
        ∃ s0 secs, splitAll ['\n', '\n'] (cs.filter (fun c => c != '\r')) = s0 :: secs
          ∧ Seeds.fromStr s0 = .ok seeds
          ∧ List.Forall₂ (fun sec t => MappingTable.fromStr sec = .ok t) secs tables)
    ∧ (∀ cs : List Char, (Almanac.fromStr cs).isOk = true ↔
        ∃ s0 secs, splitAll ['\n', '\n'] (cs.filter (fun c => c != '\r')) = s0 :: secs
          ∧ (Seeds.fromStr s0).isOk = true
          ∧ ∀ sec ∈ secs, (MappingTable.fromStr sec).isOk = true)
    ∧ (∀ cs : List Char, (Almanac.fromStr (cs ++ strL "\n\n")).isOk = false)
    ∧ (∀ cs : List Char, (cs.filter (fun c => c != '\r')).getLast? ≠ some '\n' →
        Almanac.fromStr (cs ++ strL "\n") = Almanac.fromStr cs) := by
  refine ⟨?_, ?_, ?_, ?_⟩
  · intro cs seeds tables
    cases hsec : splitAll ['\n', '\n'] (cs.filter (fun c => c != '\r')) with
    | nil =>
      have hval : Almanac.fromStr cs = .error "empty almanac" := by
        simp only [Almanac.fromStr, hsec]
      rw [hval]
      constructor
      · intro hcon
        cases hcon
      · rintro ⟨s0, secs, hcon, -⟩
        cases hcon
    | cons s0 secs0 =>
      cases hseeds : Seeds.fromStr s0 with
      | error e =>
        have hval : Almanac.fromStr cs = .error e := by
          simp only [Almanac.fromStr, hsec, hseeds]
        rw [hval]
        constructor
        · intro hcon
          cases hcon
        · rintro ⟨s1, secs1, hcon, hs, -⟩
          injection hcon with he1 he2
          subst he1
          subst he2
          rw [hseeds] at hs
          cases hs
      | ok sds =>
        cases htab : collectE MappingTable.fromStr secs0 with
        | error e =>
          have hval : Almanac.fromStr cs = .error e := by
            simp only [Almanac.fromStr, hsec, hseeds, htab]
          rw [hval]
          constructor
          · intro hcon
            cases hcon
          · rintro ⟨s1, secs1, hcon, hs, hf2⟩
            injection hcon with he1 he2
            subst he1
            subst he2
            have hok : collectE MappingTable.fromStr secs0 = .ok tables :=
              (collectE_ok_iff _ _ _).mpr hf2
            rw [htab] at hok
            cases hok
        | ok tabs =>
          have hval : Almanac.fromStr cs = .ok ⟨sds, tabs⟩ := by
            simp only [Almanac.fromStr, hsec, hseeds, htab]
          rw [hval]
          constructor
          · intro hcon
            injection hcon with hcon
            injection hcon with ha hb
            subst ha
            subst hb
            exact ⟨s0, secs0, rfl, hseeds, (collectE_ok_iff _ _ _).mp htab⟩
          · rintro ⟨s1, secs1, hcon, hs, hf2⟩
            injection hcon with he1 he2
            subst he1
            subst he2
            rw [hseeds] at hs
            injection hs with hs
            subst hs
            have hok : collectE MappingTable.fromStr secs0 = .ok tables :=
              (collectE_ok_iff _ _ _).mpr hf2
            rw [htab] at hok
            injection hok with hok
            subst hok
            rfl
  · intro cs
    cases hsec : splitAll ['\n', '\n'] (cs.filter (fun c => c != '\r')) with
    | nil =>
      have hval : Almanac.fromStr cs = .error "empty almanac" := by
        simp only [Almanac.fromStr, hsec]
      rw [hval]
      constructor
      · intro hcon
        simp [Except.isOk, Except.toBool] at hcon
      · rintro ⟨s0, secs, hcon, -⟩
        cases hcon
    | cons s0 secs0 =>
      cases hseeds : Seeds.fromStr s0 with
      | error e =>
        have hval : Almanac.fromStr cs = .error e := by
          simp only [Almanac.fromStr, hsec, hseeds]
        rw [hval]
        constructor
        · intro hcon
          simp [Except.isOk, Except.toBool] at hcon
        · rintro ⟨s1, secs1, hcon, hs, -⟩
          injection hcon with he1 he2
          subst he1
          subst he2
          rw [hseeds] at hs
          simp [Except.isOk, Except.toBool] at hs
      | ok sds =>
        have hmok := collectE_isOk MappingTable.fromStr secs0
        cases htab : collectE MappingTable.fromStr secs0 with
        | error e =>
          rw [htab] at hmok
          have hfalse : (secs0.all fun sec => (MappingTable.fromStr sec).isOk) = false :=
            hmok.symm.trans rfl
          have hval : Almanac.fromStr cs = .error e := by
            simp only [Almanac.fromStr, hsec, hseeds, htab]
          rw [hval]
          constructor
          · intro hcon
            simp [Except.isOk, Except.toBool] at hcon
          · rintro ⟨s1, secs1, hcon, -, hall⟩
            injection hcon with he1 he2
            subst he1
            subst he2
            have hAll := List.all_eq_true.mpr hall
            rw [hAll] at hfalse
            cases hfalse
        | ok tabs =>
          rw [htab] at hmok
          have htrue : (secs0.all fun sec => (MappingTable.fromStr sec).isOk) = true :=
            hmok.symm.trans rfl
          have hval : Almanac.fromStr cs = .ok ⟨sds, tabs⟩ := by
            simp only [Almanac.fromStr, hsec, hseeds, htab]
          rw [hval]
          exact iff_of_true rfl
            ⟨s0, secs0, rfl, by rw [hseeds]; rfl, List.all_eq_true.mp htrue⟩
  · intro cs
    have hfil : (cs ++ strL "\n\n").filter (fun c => c != '\r')
        = cs.filter (fun c => c != '\r') ++ ['\n', '\n'] := by
      rw [List.filter_append]
      rfl
    have hlast := lastSection_append_sep
      ((cs.filter (fun c => c != '\r') ++ ['\n', '\n']).length + 1)
      (cs.filter (fun c => c != '\r'))
      (by simp only [List.length_append, List.length_cons, List.length_nil]; omega)
    have hlast2 :
        (splitAll ['\n', '\n'] (cs.filter (fun c => c != '\r') ++ ['\n', '\n'])).getLast?
          = some []
        ∨ (splitAll ['\n', '\n'] (cs.filter (fun c => c != '\r') ++ ['\n', '\n'])).getLast?
          = some ['\n'] := hlast
    cases hsec : splitAll ['\n', '\n'] (cs.filter (fun c => c != '\r') ++ ['\n', '\n']) with
    | nil => exact absurd hsec (splitAllAux_ne_nil _ _ _)
    | cons s0 rest =>
      rw [hsec] at hlast2
      cases rest with
      | nil =>
        have hs0 : s0 = [] ∨ s0 = ['\n'] := by
          rcases hlast2 with h | h
          · left
            simpa using h
          · right
            simpa using h
        have hfail : ∃ e, Seeds.fromStr s0 = .error e := by
          rcases hs0 with rfl | rfl
          · exact ⟨"split seed line", rfl⟩
          · exact ⟨"split seed line", rfl⟩
        obtain ⟨e, he⟩ := hfail
        have hval : Almanac.fromStr (cs ++ strL "\n\n") = .error e := by
          simp only [Almanac.fromStr, hfil, hsec, he]
        rw [hval]
        rfl
      | cons r1 rest2 =>
        rw [getLast?_cons_of_ne s0 (r1 :: rest2) (by simp)] at hlast2
        have hL : ∃ L, (r1 :: rest2).getLast? = some L
            ∧ (MappingTable.fromStr L).isOk = false := by
          rcases hlast2 with h | h
          · exact ⟨[], h, rfl⟩
          · exact ⟨['\n'], h, rfl⟩
        obtain ⟨L, hL1, hL2⟩ := hL
        have hmem : L ∈ r1 :: rest2 := List.mem_of_mem_getLast? hL1
        have hcoll : (collectE MappingTable.fromStr (r1 :: rest2)).isOk = false := by
          rw [collectE_isOk]
          cases hall : (r1 :: rest2).all (fun sec => (MappingTable.fromStr sec).isOk) with
          | false => rfl
          | true =>
            have hmemall := List.all_eq_true.mp hall L hmem
            rw [hL2] at hmemall
            cases hmemall
        cases hseeds : Seeds.fromStr s0 with
        | error e =>
          have hval : Almanac.fromStr (cs ++ strL "\n\n") = .error e := by
            simp only [Almanac.fromStr, hfil, hsec, hseeds]
          rw [hval]
          rfl
        | ok sds =>
          cases htab : collectE MappingTable.fromStr (r1 :: rest2) with
          | error e =>
            have hval : Almanac.fromStr (cs ++ strL "\n\n") = .error e := by
              simp only [Almanac.fromStr, hfil, hsec, hseeds, htab]
            rw [hval]
            rfl
          | ok tabs =>
            rw [htab] at hcoll
            cases hcoll
  · intro cs hlastcs
    have hfil : (cs ++ strL "\n").filter (fun c => c != '\r')
        = cs.filter (fun c => c != '\r') ++ ['\n'] := by
      rw [List.filter_append]
      rfl
    obtain ⟨init, T, h1, h2, h3⟩ := sections_append_newline
      (cs.filter (fun c => c != '\r')).length (cs.filter (fun c => c != '\r'))
      (le_refl _) hlastcs
    cases init with
    | nil =>
      rw [List.nil_append] at h1 h2
      cases hseeds : Seeds.fromStr T with
      | error e =>
        have hs2 : Seeds.fromStr (T ++ ['\n']) = .error e := by
          rw [seeds_append_newline T]
          exact hseeds
        have hv1 : Almanac.fromStr cs = .error e := by
          simp only [Almanac.fromStr, h1, hseeds]
        have hv2 : Almanac.fromStr (cs ++ strL "\n") = .error e := by
          simp only [Almanac.fromStr, hfil, h2, hs2]
        rw [hv1, hv2]
      | ok sds =>
        have hs2 : Seeds.fromStr (T ++ ['\n']) = .ok sds := by
          rw [seeds_append_newline T]
          exact hseeds
        have hv1 : Almanac.fromStr cs = .ok ⟨sds, []⟩ := by
          simp only [Almanac.fromStr, h1, hseeds, collectE]
        have hv2 : Almanac.fromStr (cs ++ strL "\n") = .ok ⟨sds, []⟩ := by
          simp only [Almanac.fromStr, hfil, h2, hs2, collectE]
        rw [hv1, hv2]
    | cons s0 init2 =>
      have hsne : cs.filter (fun c => c != '\r') ≠ [] := by
        intro hnil
        rw [hnil] at h1
        have hcomp : splitAll ['\n', '\n'] ([] : List Char) = [[]] := rfl
        rw [hcomp] at h1
        have hlen := congrArg List.length h1
        simp at hlen
      have hTne : T ≠ [] := by
        intro hT0
        subst hT0
        exact hsne (List.getLast?_eq_none_iff.mp (h3.symm.trans rfl))
      have hTnl : T.getLast? ≠ some '\n' := by
        rw [h3]
        exact hlastcs
      have htb := table_append_newline T hTnl hTne
      have hcoll := collectE_append_single MappingTable.fromStr init2 (T ++ ['\n']) T htb
      rw [List.cons_append] at h1 h2
      cases hseeds : Seeds.fromStr s0 with
      | error e =>
        have hv1 : Almanac.fromStr cs = .error e := by
          simp only [Almanac.fromStr, h1, hseeds]
        have hv2 : Almanac.fromStr (cs ++ strL "\n") = .error e := by
          simp only [Almanac.fromStr, hfil, h2, hseeds]
        rw [hv1, hv2]
      | ok sds =>
        cases htab : collectE MappingTable.fromStr (init2 ++ [T]) with
        | error e =>
          have hv1 : Almanac.fromStr cs = .error e := by
            simp only [Almanac.fromStr, h1, hseeds, htab]
          have hv2 : Almanac.fromStr (cs ++ strL "\n") = .error e := by
            simp only [Almanac.fromStr, hfil, h2, hseeds]
            rw [hcoll, htab]
          rw [hv1, hv2]
        | ok tabs =>
          have hv1 : Almanac.fromStr cs = .ok ⟨sds, tabs⟩ := by
            simp only [Almanac.fromStr, h1, hseeds, htab]
          have hv2 : Almanac.fromStr (cs ++ strL "\n") = .ok ⟨sds, tabs⟩ := by
            simp only [Almanac.fromStr, hfil, h2, hseeds]
            rw [hcoll, htab]
          rw [hv1, hv2]

/-- Witness for C8's amended theorem: applied to the concrete two-table
document (which does not end in a newline), appending one trailing newline
leaves the parse unchanged. -/
theorem document_parse_sections_amended_witness :
    Almanac.fromStr (docTwoTables ++ strL "\n") = Almanac.fromStr docTwoTables :=
  document_parse_sections_amended.2.2.2 docTwoTables (by decide)

/-- A one-table document that parses successfully. -/
def docOneTable : List Char := strL "s: 7\n\nx-to-y map:\n1 2 3"

/-- Counterexample to C8 as stated: an otherwise valid document followed by
a trailing blank line does NOT parse — the blank line yields an empty final
section, which fails as a Mapping Table with no header line. -/
theorem document_trailing_blank_counterexample :
    (Almanac.fromStr docOneTable).isOk = true
    ∧ (Almanac.fromStr (docOneTable ++ strL "\n\n")).isOk = false := by
  exact ⟨rfl, rfl⟩

end Aoc23Day5
